import Mathlib

/-!
Verification of the document path-resolution and content-rewriting engine
of `mig3.py`.  The Python source is shallowly embedded: strings are
`List Char`, filesystem paths are lists of segments (`List String`),
Python dictionaries are insertion-ordered association lists, fallible
operations return `Option` or `Except`, and the re-scan-and-replace loops
are given explicit fuel.
-/

set_option maxHeartbeats 1000000

/-- One row of the `phriction_content` table, as parsed by `Document.__init__`. -/
structure Document where
  id : Int
  version : Int
  documentPHID : String
  slug : List Char
  title : List Char
  content : List Char
  path : List String
deriving DecidableEq

/-- Python dictionary assignment `m[k] = v`: replaces the value in place when
the key is present (keeping its position), appends a new binding otherwise. -/
def dictSet {α β : Type} [DecidableEq α] : List (α × β) → α → β → List (α × β)
  | [], k, v => [(k, v)]
  | (k', v') :: m, k, v => if k' = k then (k, v) :: m else (k', v') :: dictSet m k v

/-- Python dictionary read `m[k]` / membership test, as an option-valued lookup. -/
def alookup {α β : Type} [DecidableEq α] : List (α × β) → α → Option β
  | [], _ => none
  | (k', v') :: m, k => if k' = k then some v' else alookup m k

/-- Loop body of `select_max_version_of_documents`: keep the strictly greater
version, insert fresh PHIDs. -/
def select_step (m : List (String × Document)) (doc : Document) :
    List (String × Document) :=
  match alookup m doc.documentPHID with
  | some contestant =>
      if contestant.version < doc.version then dictSet m doc.documentPHID doc else m
  | none => dictSet m doc.documentPHID doc

/-- `select_max_version_of_documents`, returning the final `max_versions` dict. -/
def select_max_version_of_documents (docs : List Document) :
    List (String × Document) :=
  docs.foldl select_step []

/-- The iterator returned by `select_max_version_of_documents`: the dict's
values in insertion order. -/
def selected_documents (docs : List Document) : List Document :=
  (select_max_version_of_documents docs).map Prod.snd

/-- `get_documents_by_slug`: index the surviving documents by their raw slug
(`result[d.slug] = d`), last write wins. -/
def get_documents_by_slug (docs : List Document) : List (List Char × Document) :=
  docs.foldl (fun m d => dictSet m d.slug d) []

/-- `format_slug`: appends a trailing slash when absent and lowercases.
`url[-1]` faults on the empty string, modelled by `none`. -/
def format_slug (url : List Char) : Option (List Char) :=
  match url.getLast? with
  | none => none
  | some c => some ((if c ≠ '/' then url ++ ['/'] else url).map Char.toLower)

/-- Accumulator step describing, for one PHID `p`, the survivor of the scan:
keep the current best, replace it on strictly greater version. -/
def bestStep (p : String) (acc : Option Document) (x : Document) : Option Document :=
  if x.documentPHID = p then
    match acc with
    | none => some x
    | some c => if c.version < x.version then some x else some c
  else acc

/-- Decidable statement that `x` is a version-maximal record for PHID `p`
among `l`. -/
def c1pred (l : List Document) (p : String) (x : Document) : Bool :=
  x.documentPHID == p &&
    l.all (fun y => !(y.documentPHID == p) || decide (y.version ≤ x.version))

theorem alookup_dictSet {α β : Type} [DecidableEq α]
    (m : List (α × β)) (k k' : α) (v : β) :
    alookup (dictSet m k v) k' = if k' = k then some v else alookup m k' := by
  induction m with
  | nil =>
      by_cases h : k' = k
      · subst h; simp [dictSet, alookup]
      · simp [dictSet, alookup, h, Ne.symm h]
  | cons kv m ih =>
      obtain ⟨k₀, v₀⟩ := kv
      by_cases h0 : k₀ = k
      · subst h0
        by_cases h1 : k' = k₀
        · subst h1; simp [dictSet, alookup]
        · simp [dictSet, alookup, h1, Ne.symm h1]
      · by_cases h1 : k' = k₀
        · subst h1
          simp [dictSet, alookup, h0, Ne.symm h0]
        · simp [dictSet, alookup, h0, h1, Ne.symm h1, ih]

theorem alookup_select_step (m : List (String × Document)) (x : Document)
    (p : String) :
    alookup (select_step m x) p = bestStep p (alookup m p) x := by
  by_cases hp : x.documentPHID = p
  · subst hp
    cases hm : alookup m x.documentPHID with
    | none => simp [select_step, bestStep, hm, alookup_dictSet]
    | some c =>
        by_cases hv : c.version < x.version <;>
          simp [select_step, bestStep, hm, hv, alookup_dictSet]
  · cases hm : alookup m x.documentPHID with
    | none => simp [select_step, bestStep, hm, alookup_dictSet, hp, Ne.symm hp]
    | some c =>
        by_cases hv : c.version < x.version <;>
          simp [select_step, bestStep, hm, hv, alookup_dictSet, hp, Ne.symm hp]

theorem alookup_select_fold (l : List Document) (m : List (String × Document))
    (p : String) :
    alookup (l.foldl select_step m) p = l.foldl (bestStep p) (alookup m p) := by
  induction l generalizing m with
  | nil => rfl
  | cons x l ih => simp [List.foldl_cons, ih, alookup_select_step]

theorem alookup_select (docs : List Document) (p : String) :
    alookup (select_max_version_of_documents docs) p =
      docs.foldl (bestStep p) none := by
  simpa [select_max_version_of_documents, alookup] using
    alookup_select_fold docs [] p

theorem bestStep_isSome (p : String) (c x : Document) :
    (bestStep p (some c) x).isSome := by
  unfold bestStep
  by_cases h : x.documentPHID = p <;> simp [h]
  split <;> simp

theorem foldl_bestStep_some (p : String) (l : List Document) :
    ∀ c : Document, (l.foldl (bestStep p) (some c)).isSome := by
  induction l with
  | nil => intro c; rfl
  | cons x l ih =>
      intro c
      obtain ⟨c', hc'⟩ := Option.isSome_iff_exists.mp (bestStep_isSome p c x)
      rw [List.foldl_cons, hc']
      exact ih c'

theorem bestFor_eq_none_iff (p : String) (l : List Document) :
    l.foldl (bestStep p) none = none ↔ ∀ x ∈ l, x.documentPHID ≠ p := by
  induction l with
  | nil => simp
  | cons x l ih =>
      by_cases h : x.documentPHID = p
      · have hb : bestStep p none x = some x := by simp [bestStep, h]
        rw [List.foldl_cons, hb]
        constructor
        · intro hn
          have hs := foldl_bestStep_some p l x
          rw [hn] at hs
          simp at hs
        · intro hall
          exact absurd h (hall x (List.mem_cons_self x l))
      · have hb : bestStep p none x = none := by simp [bestStep, h]
        rw [List.foldl_cons, hb, ih]
        simp [List.forall_mem_cons, h]

theorem find?_append_my {α : Type} (l₁ l₂ : List α) (f : α → Bool) :
    (l₁ ++ l₂).find? f =
      (match l₁.find? f with
       | some a => some a
       | none => l₂.find? f) := by
  induction l₁ with
  | nil => simp
  | cons a l₁ ih =>
      cases hf : f a <;> simp [List.find?_cons, hf, ih]

theorem find?_strengthen {α : Type} (l : List α) (q q' : α → Bool)
    (himp : ∀ x ∈ l, q' x = true → q x = true) (c : α)
    (hq : l.find? q = some c) (hc : q' c = true) :
    l.find? q' = some c := by
  induction l with
  | nil => simp at hq
  | cons a l ih =>
      cases ha' : q' a
      · cases ha : q a
        · rw [List.find?_cons_of_neg _ (by simp [ha])] at hq
          rw [List.find?_cons_of_neg _ (by simp [ha'])]
          exact ih (fun x hx => himp x (List.mem_cons_of_mem a hx)) hq
        · rw [List.find?_cons_of_pos _ ha] at hq
          obtain rfl : a = c := by injection hq
          rw [hc] at ha'
          cases ha'
      · have ha : q a = true := himp a (List.mem_cons_self a l) ha'
        rw [List.find?_cons_of_pos _ ha] at hq
        obtain rfl : a = c := by injection hq
        rw [List.find?_cons_of_pos _ ha']

theorem mem_dictSet {α β : Type} [DecidableEq α] (m : List (α × β)) (k : α) (v : β) :
    ∀ kv ∈ dictSet m k v, kv ∈ m ∨ kv = (k, v) := by
  induction m with
  | nil => simp [dictSet]
  | cons kv₀ m ih =>
      obtain ⟨k₀, v₀⟩ := kv₀
      by_cases h : k₀ = k
      · subst h
        intro kv hkv
        rw [dictSet, if_pos rfl] at hkv
        rcases List.mem_cons.mp hkv with h1 | h1
        · right; exact h1
        · left; exact List.mem_cons_of_mem _ h1
      · intro kv hkv
        rw [dictSet, if_neg h] at hkv
        rcases List.mem_cons.mp hkv with h1 | h1
        · left; rw [h1]; exact List.mem_cons_self _ _
        · rcases ih kv h1 with h2 | h2
          · left; exact List.mem_cons_of_mem _ h2
          · right; exact h2

theorem mem_map_fst_dictSet {α β : Type} [DecidableEq α]
    (m : List (α × β)) (k : α) (v : β) :
    ∀ a ∈ (dictSet m k v).map Prod.fst, a ∈ m.map Prod.fst ∨ a = k := by
  intro a ha
  obtain ⟨kv, hkv, rfl⟩ := List.mem_map.mp ha
  rcases mem_dictSet m k v kv hkv with h | h
  · left; exact List.mem_map.mpr ⟨kv, h, rfl⟩
  · right; rw [h]

theorem nodup_map_fst_dictSet {α β : Type} [DecidableEq α]
    (m : List (α × β)) (k : α) (v : β)
    (h : (m.map Prod.fst).Nodup) : ((dictSet m k v).map Prod.fst).Nodup := by
  induction m with
  | nil => simp [dictSet]
  | cons kv₀ m ih =>
      obtain ⟨k₀, v₀⟩ := kv₀
      simp only [List.map_cons, List.nodup_cons] at h
      by_cases hk : k₀ = k
      · subst hk
        rw [dictSet, if_pos rfl]
        simpa [List.nodup_cons] using h
      · rw [dictSet, if_neg hk]
        simp only [List.map_cons, List.nodup_cons]
        refine ⟨?_, ih h.2⟩
        intro hmem
        rcases mem_map_fst_dictSet m k v k₀ hmem with h1 | h1
        · exact h.1 h1
        · exact hk h1

theorem select_step_fresh (m : List (String × Document)) (x : Document)
    (h : alookup m x.documentPHID = none) :
    select_step m x = dictSet m x.documentPHID x := by
  unfold select_step; rw [h]

theorem select_step_replace (m : List (String × Document)) (x c : Document)
    (h : alookup m x.documentPHID = some c) (hv : c.version < x.version) :
    select_step m x = dictSet m x.documentPHID x := by
  unfold select_step; rw [h]; exact if_pos hv

theorem select_step_keep (m : List (String × Document)) (x c : Document)
    (h : alookup m x.documentPHID = some c) (hv : ¬c.version < x.version) :
    select_step m x = m := by
  unfold select_step; rw [h]; exact if_neg hv

theorem select_invariants (docs : List Document) :
    (∀ kv ∈ select_max_version_of_documents docs, (kv.2).documentPHID = kv.1) ∧
      ((select_max_version_of_documents docs).map Prod.fst).Nodup := by
  have main : ∀ (l : List Document) (m : List (String × Document)),
      (∀ kv ∈ m, (kv.2).documentPHID = kv.1) → (m.map Prod.fst).Nodup →
      (∀ kv ∈ l.foldl select_step m, (kv.2).documentPHID = kv.1) ∧
        ((l.foldl select_step m).map Prod.fst).Nodup := by
    intro l
    induction l with
    | nil => intro m h1 h2; exact ⟨h1, h2⟩
    | cons x l ih =>
        intro m h1 h2
        rw [List.foldl_cons]
        apply ih
        · intro kv hkv
          rcases hsel : alookup m x.documentPHID with _ | c
          · rw [select_step_fresh m x hsel] at hkv
            rcases mem_dictSet m x.documentPHID x kv hkv with h | h
            · exact h1 kv h
            · rw [h]
          · by_cases hv : c.version < x.version
            · rw [select_step_replace m x c hsel hv] at hkv
              rcases mem_dictSet m x.documentPHID x kv hkv with h | h
              · exact h1 kv h
              · rw [h]
            · rw [select_step_keep m x c hsel hv] at hkv
              exact h1 kv hkv
        · rcases hsel : alookup m x.documentPHID with _ | c
          · rw [select_step_fresh m x hsel]
            exact nodup_map_fst_dictSet m _ x h2
          · by_cases hv : c.version < x.version
            · rw [select_step_replace m x c hsel hv]
              exact nodup_map_fst_dictSet m _ x h2
            · rw [select_step_keep m x c hsel hv]; exact h2
  exact main docs [] (by simp) (by simp)

theorem filter_values_aux (m : List (String × Document)) (p : String)
    (hkeyed : ∀ kv ∈ m, (kv.2).documentPHID = kv.1)
    (hnot : p ∉ m.map Prod.fst) :
    (m.map Prod.snd).filter (fun e => e.documentPHID == p) = [] := by
  induction m with
  | nil => rfl
  | cons kv m ih =>
      obtain ⟨k, v⟩ := kv
      simp only [List.map_cons, List.mem_cons] at hnot
      push_neg at hnot
      have hv : v.documentPHID = k := hkeyed (k, v) (List.mem_cons_self _ _)
      have hvne : ¬(v.documentPHID == p) = true := by
        simp [hv]
        exact fun h => hnot.1 h.symm
      simp only [List.map_cons, List.filter_cons]
      rw [if_neg hvne]
      exact ih (fun kv hkv => hkeyed kv (List.mem_cons_of_mem _ hkv)) hnot.2

theorem filter_values_of_alookup (m : List (String × Document)) (p : String)
    (hkeyed : ∀ kv ∈ m, (kv.2).documentPHID = kv.1)
    (hnodup : (m.map Prod.fst).Nodup) :
    (m.map Prod.snd).filter (fun e => e.documentPHID == p) = (alookup m p).toList := by
  induction m with
  | nil => rfl
  | cons kv m ih =>
      obtain ⟨k, v⟩ := kv
      simp only [List.map_cons, List.nodup_cons] at hnodup
      have hv : v.documentPHID = k := hkeyed (k, v) (List.mem_cons_self _ _)
      by_cases hk : k = p
      · have hfil : (m.map Prod.snd).filter (fun e => e.documentPHID == p) = [] :=
          filter_values_aux m p
            (fun kv hkv => hkeyed kv (List.mem_cons_of_mem _ hkv)) (hk ▸ hnodup.1)
        simp only [List.map_cons, List.filter_cons]
        rw [if_pos (by simp [hv, hk]), hfil, alookup, if_pos hk]
        rfl
      · simp only [List.map_cons, List.filter_cons]
        rw [if_neg (by simp [hv, hk]), alookup, if_neg hk]
        exact ih (fun kv hkv => hkeyed kv (List.mem_cons_of_mem _ hkv)) hnodup.2

theorem bool_eq_of_true_iff {a b : Bool} (h : a = true ↔ b = true) : a = b := by
  cases a <;> cases b <;> simp_all

theorem find?_congr_my {α : Type} (l : List α) (f g : α → Bool)
    (h : ∀ x ∈ l, f x = g x) : l.find? f = l.find? g := by
  induction l with
  | nil => rfl
  | cons a l ih =>
      have ha := h a (List.mem_cons_self a l)
      cases hg : g a
      · rw [List.find?_cons_of_neg _ (by simp [ha, hg]),
          List.find?_cons_of_neg _ (by simp [hg])]
        exact ih fun x hx => h x (List.mem_cons_of_mem a hx)
      · rw [List.find?_cons_of_pos _ (by simp [ha, hg]),
          List.find?_cons_of_pos _ hg]

theorem c1pred_iff (L : List Document) (p : String) (y : Document) :
    c1pred L p y = true ↔
      (y.documentPHID = p ∧ ∀ z ∈ L, z.documentPHID = p → z.version ≤ y.version) := by
  constructor
  · intro h
    rw [c1pred, Bool.and_eq_true] at h
    refine ⟨by simpa using h.1, ?_⟩
    intro z hz hzp
    have hall := List.all_eq_true.mp h.2 z hz
    rw [Bool.or_eq_true] at hall
    rcases hall with h1 | h1
    · rw [Bool.not_eq_true', beq_eq_false_iff_ne] at h1
      exact absurd hzp h1
    · exact of_decide_eq_true h1
  · rintro ⟨h1, h2⟩
    rw [c1pred, Bool.and_eq_true]
    refine ⟨by simpa using h1, List.all_eq_true.mpr ?_⟩
    intro z hz
    rw [Bool.or_eq_true]
    by_cases hzp : z.documentPHID = p
    · right; exact decide_eq_true (h2 z hz hzp)
    · left; rw [Bool.not_eq_true', beq_eq_false_iff_ne]; exact hzp

theorem bestFor_eq_find? (p : String) (l : List Document) :
    l.foldl (bestStep p) none = l.find? (c1pred l p) := by
  induction l using List.reverseRecOn with
  | nil => rfl
  | append_singleton l x ih =>
      rw [List.foldl_append, List.foldl_cons, List.foldl_nil]
      by_cases hx : x.documentPHID = p
      · cases hl : l.foldl (bestStep p) none with
        | none =>
            have hall : ∀ y ∈ l, y.documentPHID ≠ p := (bestFor_eq_none_iff p l).mp hl
            have hlhs : bestStep p none x = some x := by simp [bestStep, hx]
            rw [hlhs, find?_append_my]
            have hnone : l.find? (c1pred (l ++ [x]) p) = none := by
              rw [List.find?_eq_none]
              intro y hy hcon
              exact absurd ((c1pred_iff _ p y).mp hcon).1 (hall y hy)
            have hpx : c1pred (l ++ [x]) p x = true := by
              refine (c1pred_iff _ p x).mpr ⟨hx, ?_⟩
              intro z hz hzp
              rcases List.mem_append.mp hz with h | h
              · exact absurd hzp (hall z h)
              · rw [List.mem_singleton.mp h]
            rw [hnone, List.find?_cons_of_pos _ hpx]
        | some c =>
            have hfind : l.find? (c1pred l p) = some c := by rw [← ih, hl]
            have hcc := List.find?_some hfind
            obtain ⟨hcp, hcmax⟩ := (c1pred_iff l p c).mp hcc
            by_cases hlt : c.version < x.version
            · have hlhs : bestStep p (some c) x = some x := by
                simp [bestStep, hx, hlt]
              rw [hlhs, find?_append_my]
              have hnone : l.find? (c1pred (l ++ [x]) p) = none := by
                rw [List.find?_eq_none]
                intro y hy hcon
                obtain ⟨hyp, hymax⟩ := (c1pred_iff _ p y).mp hcon
                have h1 : x.version ≤ y.version :=
                  hymax x (List.mem_append.mpr (Or.inr (List.mem_singleton_self x))) hx
                have h2 : y.version ≤ c.version := hcmax y hy hyp
                omega
              have hpx : c1pred (l ++ [x]) p x = true := by
                refine (c1pred_iff _ p x).mpr ⟨hx, ?_⟩
                intro z hz hzp
                rcases List.mem_append.mp hz with h | h
                · have := hcmax z h hzp; omega
                · rw [List.mem_singleton.mp h]
              rw [hnone, List.find?_cons_of_pos _ hpx]
            · have hlhs : bestStep p (some c) x = some c := by
                simp [bestStep, hx, hlt]
              rw [hlhs]
              have hpc : c1pred (l ++ [x]) p c = true := by
                refine (c1pred_iff _ p c).mpr ⟨hcp, ?_⟩
                intro z hz hzp
                rcases List.mem_append.mp hz with h | h
                · exact hcmax z h hzp
                · rw [List.mem_singleton.mp h]; omega
              have himp : ∀ z ∈ l, c1pred (l ++ [x]) p z = true →
                  c1pred l p z = true := by
                intro z hz hcon
                obtain ⟨hzp, hzmax⟩ := (c1pred_iff _ p z).mp hcon
                exact (c1pred_iff l p z).mpr
                  ⟨hzp, fun w hw hwp =>
                    hzmax w (List.mem_append.mpr (Or.inl hw)) hwp⟩
              have hres : l.find? (c1pred (l ++ [x]) p) = some c :=
                find?_strengthen l (c1pred l p) (c1pred (l ++ [x]) p) himp c hfind hpc
              rw [find?_append_my, hres]
      · have hlhs : bestStep p (l.foldl (bestStep p) none) x =
            l.foldl (bestStep p) none := by simp [bestStep, hx]
        rw [hlhs, ih, find?_append_my]
        have hcongr : l.find? (c1pred (l ++ [x]) p) = l.find? (c1pred l p) := by
          apply find?_congr_my
          intro y hy
          apply bool_eq_of_true_iff
          rw [c1pred_iff, c1pred_iff]
          constructor
          · rintro ⟨h1, h2⟩
            exact ⟨h1, fun z hz hzp => h2 z (List.mem_append.mpr (Or.inl hz)) hzp⟩
          · rintro ⟨h1, h2⟩
            refine ⟨h1, ?_⟩
            intro z hz hzp
            rcases List.mem_append.mp hz with h | h
            · exact h2 z h hzp
            · rw [List.mem_singleton.mp h] at hzp
              exact absurd hzp hx
        rw [hcongr]
        have hxfalse : c1pred (l ++ [x]) p x ≠ true := by
          intro hcon
          exact absurd ((c1pred_iff _ p x).mp hcon).1 hx
        cases hres : l.find? (c1pred l p) with
        | none => rw [List.find?_cons_of_neg _ hxfalse, List.find?_nil]
        | some a => rfl

/-- C1: for every input sequence, Version Selection keeps exactly one
Document per distinct documentPHID, namely the first-encountered record
achieving the maximum version for that PHID (so ties resolve to the first
record encountered). -/
theorem C1_version_selection (docs : List Document) (p : String)
    (hp : p ∈ docs.map (fun d => d.documentPHID)) :
    ∃ d, (selected_documents docs).filter (fun e => e.documentPHID == p) = [d] ∧
      docs.find? (c1pred docs p) = some d := by
  obtain ⟨x, hx, hxp⟩ := List.mem_map.mp hp
  have hne : docs.foldl (bestStep p) none ≠ none := by
    intro h
    exact (bestFor_eq_none_iff p docs).mp h x hx hxp
  obtain ⟨d, hd⟩ := Option.ne_none_iff_exists'.mp hne
  refine ⟨d, ?_, ?_⟩
  · have hinv := select_invariants docs
    have hfil := filter_values_of_alookup
      (select_max_version_of_documents docs) p hinv.1 hinv.2
    have hlk : alookup (select_max_version_of_documents docs) p = some d := by
      rw [alookup_select]; exact hd
    unfold selected_documents
    rw [hfil, hlk]
    rfl
  · rw [← bestFor_eq_find? p docs]; exact hd

/-- Tie-breaking input for the C1 witness: two records with equal versions. -/
def c1docA : Document := ⟨1, 5, "P", ['a', '/'], ['t'], [], []⟩

/-- Second record of the C1 witness pair. -/
def c1docB : Document := ⟨2, 5, "P", ['b', '/'], ['u'], [], []⟩

theorem C1_version_selection_witness :
    ∃ d, (selected_documents [c1docA, c1docB]).filter
        (fun e => e.documentPHID == "P") = [d] ∧
      [c1docA, c1docB].find? (c1pred [c1docA, c1docB] "P") = some d :=
  C1_version_selection [c1docA, c1docB] "P" (by decide)

theorem nil_isPrefixOf (t : List String) : List.isPrefixOf [] t = true := by
  cases t <;> rfl

/-- `pathlib` paths, embedded as their `parts` (relative paths only; the
whole export tree lives under the relative root `./exported`, whose parts
are `["exported"]`; `Path('.')` has no parts, i.e. `[]`).
`regressive_relative_to`: try `to.relative_to(from_)` — which succeeds
exactly when `from_`'s parts are a leading run of `to`'s parts, yielding
the remaining parts — and otherwise climb to `from_.parent`, prefixing one
`..` part (`Path('..', str(r))`, which drops the `.` rendering of an empty
relative path). -/
def regressive_relative_to (f t : List String) : List String :=
  if h : f.isPrefixOf t then t.drop f.length
  else ".." :: regressive_relative_to f.dropLast t
termination_by f.length
decreasing_by
  simp only [List.length_dropLast]
  have hf : f ≠ [] := by
    intro hnil
    rw [hnil] at h
    exact h (nil_isPrefixOf t)
  have := List.length_pos.mpr hf
  omega

/-- Number of recursive climbs `regressive_relative_to` performs. -/
def rrt_climbs (f t : List String) : Nat :=
  if h : f.isPrefixOf t then 0
  else rrt_climbs f.dropLast t + 1
termination_by f.length
decreasing_by
  simp only [List.length_dropLast]
  have hf : f ≠ [] := by
    intro hnil
    rw [hnil] at h
    exact h (nil_isPrefixOf t)
  have := List.length_pos.mpr hf
  omega

/-- One step of standard path normalization: `.` is dropped, `..` cancels
the preceding segment, anything else is kept. -/
def normalize_step (acc : List String) (s : String) : List String :=
  if s = "." then acc else if s = ".." then acc.dropLast else acc ++ [s]

/-- Normalize away `.` and `..` segments of a path. -/
def normalizeSegs (l : List String) : List String := l.foldl normalize_step []

theorem isPrefixOf_append_drop :
    ∀ (f t : List String), f.isPrefixOf t = true → f ++ t.drop f.length = t := by
  intro f
  induction f with
  | nil => intro t _; simp
  | cons a f ih =>
      intro t h
      cases t with
      | nil => simp [List.isPrefixOf] at h
      | cons b t =>
          rw [List.isPrefixOf, Bool.and_eq_true] at h
          obtain ⟨hab, hf⟩ := h
          obtain rfl : a = b := by simpa using hab
          simpa using ih t hf

theorem normGo_clean (l : List String) (h1 : "." ∉ l) (h2 : ".." ∉ l) :
    ∀ acc : List String, l.foldl normalize_step acc = acc ++ l := by
  induction l with
  | nil => intro acc; simp
  | cons s l ih =>
      intro acc
      simp only [List.mem_cons] at h1 h2
      push_neg at h1 h2
      rw [List.foldl_cons]
      have hstep : normalize_step acc s = acc ++ [s] := by
        rw [normalize_step, if_neg (Ne.symm h1.1), if_neg (Ne.symm h2.1)]
      rw [hstep, ih h1.2 h2.2]
      simp

theorem mem_of_mem_dropLast {α : Type} {l : List α} {a : α}
    (h : a ∈ l.dropLast) : a ∈ l := by
  induction l with
  | nil => simp at h
  | cons b l ih =>
      cases l with
      | nil => simp at h
      | cons c l =>
          rcases List.mem_cons.mp h with h1 | h1
          · rw [h1]; exact List.mem_cons_self _ _
          · exact List.mem_cons_of_mem _ (ih h1)

theorem C4_aux : ∀ (n : Nat) (f t : List String), f.length ≤ n →
    "." ∉ f → ".." ∉ f → "." ∉ t → ".." ∉ t →
    normalizeSegs (f ++ regressive_relative_to f t) = t := by
  intro n
  induction n with
  | zero =>
      intro f t hlen hf1 hf2 ht1 ht2
      have hf : f = [] := List.length_eq_zero.mp (Nat.le_zero.mp hlen)
      subst hf
      rw [regressive_relative_to, dif_pos (nil_isPrefixOf t)]
      simpa [normalizeSegs] using normGo_clean t ht1 ht2 []
  | succ n ih =>
      intro f t hlen hf1 hf2 ht1 ht2
      by_cases h : f.isPrefixOf t
      · rw [regressive_relative_to, dif_pos h, isPrefixOf_append_drop f t h]
        simpa [normalizeSegs] using normGo_clean t ht1 ht2 []
      · rw [regressive_relative_to, dif_neg h]
        unfold normalizeSegs
        rw [show f ++ ".." :: regressive_relative_to f.dropLast t =
              (f ++ [".."]) ++ regressive_relative_to f.dropLast t by simp,
            List.foldl_append, List.foldl_append]
        rw [show f.foldl normalize_step [] = f by
              simpa using normGo_clean f hf1 hf2 []]
        rw [show List.foldl normalize_step f [".."] = f.dropLast by
              simp [normalize_step]]
        have hd1 : "." ∉ f.dropLast := fun hc => hf1 (mem_of_mem_dropLast hc)
        have hd2 : ".." ∉ f.dropLast := fun hc => hf2 (mem_of_mem_dropLast hc)
        have hdl : f.dropLast.length ≤ n := by
          have hf0 : f ≠ [] := by
            intro hnil
            rw [hnil] at h
            exact h (nil_isPrefixOf t)
          have := List.length_pos.mpr hf0
          rw [List.length_dropLast]
          omega
        have hih := ih f.dropLast t hdl hd1 hd2 ht1 ht2
        unfold normalizeSegs at hih
        rw [List.foldl_append] at hih
        rw [show f.dropLast.foldl normalize_step [] = f.dropLast by
              simpa using normGo_clean f.dropLast hd1 hd2 []] at hih
        exact hih

/-- C4: joining a source directory with the resolver's output and
normalizing away `.` and `..` segments yields exactly the target path,
for any two dot-free paths (in particular any two resolved document paths
under the export root). -/
theorem C4_relative_link_roundtrip (f t : List String)
    (hf1 : "." ∉ f) (hf2 : ".." ∉ f) (ht1 : "." ∉ t) (ht2 : ".." ∉ t) :
    normalizeSegs (f ++ regressive_relative_to f t) = t :=
  C4_aux f.length f t le_rfl hf1 hf2 ht1 ht2

theorem C4_relative_link_roundtrip_witness :
    ("." ∉ ["exported", "a"] ∧ ".." ∉ ["exported", "a"] ∧
      "." ∉ ["exported", "b", "c.md"] ∧ ".." ∉ ["exported", "b", "c.md"]) ∧
    normalizeSegs (["exported", "a"] ++
        regressive_relative_to ["exported", "a"] ["exported", "b", "c.md"]) =
      ["exported", "b", "c.md"] :=
  ⟨by decide,
    C4_relative_link_roundtrip ["exported", "a"] ["exported", "b", "c.md"]
      (by decide) (by decide) (by decide) (by decide)⟩

/-- C9: the resolver terminates after at most `depth(P)` climbs, each climb
contributing exactly one leading `..` segment; after `k` climbs the target
is rendered relative to the ancestor `P` minus its last `k` segments. -/
theorem C9_rrt_climbs_bounded (f t : List String) :
    rrt_climbs f t ≤ f.length ∧
      regressive_relative_to f t =
        List.replicate (rrt_climbs f t) ".." ++
          t.drop (f.length - rrt_climbs f t) := by
  have main : ∀ (n : Nat) (f t : List String), f.length ≤ n →
      rrt_climbs f t ≤ f.length ∧
        regressive_relative_to f t =
          List.replicate (rrt_climbs f t) ".." ++
            t.drop (f.length - rrt_climbs f t) := by
    intro n
    induction n with
    | zero =>
        intro f t hlen
        have hf : f = [] := List.length_eq_zero.mp (Nat.le_zero.mp hlen)
        subst hf
        rw [rrt_climbs, dif_pos (nil_isPrefixOf t),
          regressive_relative_to, dif_pos (nil_isPrefixOf t)]
        simp
    | succ n ih =>
        intro f t hlen
        by_cases h : f.isPrefixOf t
        · rw [rrt_climbs, dif_pos h, regressive_relative_to, dif_pos h]
          simp
        · have hf0 : f ≠ [] := by
            intro hnil
            rw [hnil] at h
            exact h (nil_isPrefixOf t)
          have hpos := List.length_pos.mpr hf0
          have hdl : f.dropLast.length ≤ n := by
            rw [List.length_dropLast]; omega
          obtain ⟨ih1, ih2⟩ := ih f.dropLast t hdl
          rw [List.length_dropLast] at ih1 ih2
          rw [rrt_climbs, dif_neg h, regressive_relative_to, dif_neg h]
          constructor
          · omega
          · rw [ih2, List.replicate_succ]
            have : f.length - 1 - rrt_climbs f.dropLast t =
                f.length - (rrt_climbs f.dropLast t + 1) := by omega
            rw [this]
            rfl
  exact main f.length f t le_rfl

/-- Python `str.split('/')`: splits on every slash, keeping empty pieces. -/
def splitOnSlash : List Char → List (List Char)
  | [] => [[]]
  | c :: cs =>
      match splitOnSlash cs with
      | [] => [[c]]
      | h :: tl => if c = '/' then [] :: h :: tl else (c :: h) :: tl

/-- The parts a `pathlib` constructor extracts from a relative slug string:
split on `/`, dropping empty segments and `.` segments. -/
def pathParts (slug : List Char) : List String :=
  ((splitOnSlash slug).map (fun seg => String.mk seg)).filter
    (fun s => s ≠ "" && s ≠ ".")

/-- The provisional path assigned by `Document.__init__`:
`Path(EXPORT_DIR)` for the root slug `/`, `Path(EXPORT_DIR, slug)` otherwise
(`EXPORT_DIR = "./exported"`, whose parts are `["exported"]`).  Modelled for
slugs that do not begin with `/` (besides the root slug itself): an absolute
slug would make `pathlib` discard the export root entirely. -/
def document_init_path (slug : List Char) : List String :=
  if slug = ['/'] then ["exported"]
  else "exported" :: pathParts slug

/-- `PurePath.with_suffix('.md')` on a path's final component: the old
suffix — present when the last `.` sits strictly inside the name — is
stripped, then `.md` is appended. -/
def with_suffix_md (name : List Char) : List Char :=
  let j := (name.reverse.takeWhile (fun c => c ≠ '.')).length
  if 0 < j ∧ j < name.length - 1 then
    name.take (name.length - 1 - j) ++ ['.', 'm', 'd']
  else name ++ ['.', 'm', 'd']

/-- `with_suffix_md` lifted to path segments. -/
def with_suffix_md_seg (s : String) : String :=
  String.mk (with_suffix_md s.toList)

/-- `Document.correct_path`, reading the filesystem state as the set of
directories existing at correction time: an existing directory gains
`/README.md`, anything else gets a `.md` suffix.  (A path that exists as a
plain file fails `is_dir` and also takes the `with_suffix` branch.)
The empty path is unreachable for document paths, whose head is the
export root. -/
def correct_path (dirs : List (List String)) (p : List String) : List String :=
  if p ∈ dirs then p ++ ["README.md"]
  else
    match p.getLast? with
    | none => []
    | some s => p.dropLast ++ [with_suffix_md_seg s]

/-- The path resolution the executed pipeline (`main`) performs for one
document: provisional placement in `__init__`, then `correct_path`. -/
def resolved_path (dirs : List (List String)) (slug : List Char) : List String :=
  correct_path dirs (document_init_path slug)

/-- `Document.get_filename` (never called by `main`): filters empty slug
segments, raises on a slug with no segments left, otherwise joins under
`base_dir` and picks `README.md`-inside versus `.md`-appended by an
existence check. -/
def get_filename (fsExists : List (List String)) (base_dir : List String)
    (slug : List Char) : Except String (List String) :=
  if slug = ['/'] then Except.ok (base_dir ++ ["README.md"])
  else
    let dirs := ((splitOnSlash slug).map (fun seg => String.mk seg)).filter
      (fun s => s ≠ "")
    match dirs.getLast? with
    | none => Except.error "Bad slug here: "
    | some filename =>
        let raw := (base_dir ++ dirs.dropLast) ++ [filename]
        if raw ∈ fsExists then Except.ok (raw ++ ["README.md"])
        else Except.ok (raw.dropLast ++ [filename ++ ".md"])

theorem alookup_get_documents_by_slug (docs : List Document) (s : List Char) :
    alookup (get_documents_by_slug docs) s =
      docs.reverse.find? (fun d => d.slug == s) := by
  have main : ∀ (l : List Document) (m : List (List Char × Document)),
      alookup (l.foldl (fun m d => dictSet m d.slug d) m) s =
        (match l.reverse.find? (fun d => d.slug == s) with
         | some d => some d
         | none => alookup m s) := by
    intro l
    induction l with
    | nil => intro m; simp
    | cons x l ih =>
        intro m
        rw [List.foldl_cons, ih, List.reverse_cons, find?_append_my]
        cases hfind : l.reverse.find? (fun d => d.slug == s) with
        | some d => rfl
        | none =>
            by_cases hx : x.slug = s
            · rw [List.find?_cons_of_pos _ (by simp [hx])]
              rw [alookup_dictSet, if_pos hx.symm]
            · rw [List.find?_cons_of_neg _ (by simp [hx]), List.find?_nil]
              rw [alookup_dictSet, if_neg (fun hc => hx hc.symm)]
  rw [get_documents_by_slug, main docs []]
  cases docs.reverse.find? (fun d => d.slug == s) <;> rfl

/-- C2 (amended): the Slug Index is keyed by the raw slug, so the
normalized-key lookup the rewriter performs returns `d` when `d` is the
last surviving document with its slug and that slug is already in
normalized form (lowercase with a trailing slash). -/
theorem C2_slug_index_amended (docs : List Document) (d : Document)
    (hlast : docs.reverse.find? (fun e => e.slug == d.slug) = some d)
    (hnorm : format_slug d.slug = some d.slug) :
    ∃ k, format_slug d.slug = some k ∧
      alookup (get_documents_by_slug docs) k = some d :=
  ⟨d.slug, hnorm, by rw [alookup_get_documents_by_slug]; exact hlast⟩

/-- A document whose slug is already normalized, for the C2 witness. -/
def c2docNorm : Document := ⟨1, 1, "P", ['a', '/'], ['t'], [], []⟩

theorem C2_slug_index_amended_witness :
    ∃ k, format_slug c2docNorm.slug = some k ∧
      alookup (get_documents_by_slug [c2docNorm]) k = some c2docNorm :=
  C2_slug_index_amended [c2docNorm] c2docNorm (by decide) (by decide)

/-- A document whose raw slug is not lowercase, for the C2 counterexample. -/
def c2docUpper : Document := ⟨1, 1, "P", ['A', '/'], ['t'], [], []⟩

/-- C2 fails as stated: the index stores the raw slug `A/`, so looking up
the normalized form `a/` of the surviving document's slug finds nothing. -/
theorem C2_slug_index_counterexample :
    format_slug c2docUpper.slug = some ['a', '/'] ∧
      alookup (get_documents_by_slug [c2docUpper]) ['a', '/'] = none := by
  decide

/-- C7 (amended): the root document resolves to `README.md` directly under
the export root provided the export root exists as a directory at
correction time (which holds as soon as any non-root document was
constructed, since its `__init__` creates the parent chain). -/
theorem C7_root_resolves_readme (dirs : List (List String))
    (h : ["exported"] ∈ dirs) :
    resolved_path dirs ['/'] = ["exported", "README.md"] := by
  have hinit : document_init_path ['/'] = ["exported"] := by decide
  unfold resolved_path
  rw [hinit]
  unfold correct_path
  rw [if_pos h]
  rfl

theorem C7_root_resolves_readme_witness :
    resolved_path [["exported"]] ['/'] = ["exported", "README.md"] :=
  C7_root_resolves_readme [["exported"]] (by decide)

/-- C7 fails as stated: with no other document (and no pre-existing export
root directory), the root document's corrected path is `exported.md`, not
`README.md` under the export root — the resolution does depend on the
filesystem state the collision-correction step observes. -/
theorem C7_root_counterexample :
    resolved_path [] ['/'] = ["exported.md"] ∧
      resolved_path [] ['/'] ≠ ["exported", "README.md"] := by
  decide

/-- C8: on the malformed slug `""` (zero non-empty segments) the executed
pipeline raises nothing — under every filesystem state it silently assigns
the nonsensical path `exported/README.md` or `exported.md` — while the
loud failure demanded by the spec lives only in `get_filename`, which
`main` never calls. -/
theorem C8_malformed_slug_is_silent (dirs : List (List String)) :
    (resolved_path dirs [] = ["exported", "README.md"] ∨
      resolved_path dirs [] = ["exported.md"]) ∧
    get_filename dirs ["exported"] [] = Except.error "Bad slug here: " := by
  constructor
  · have hinit : document_init_path [] = ["exported"] := by decide
    unfold resolved_path
    rw [hinit]
    unfold correct_path
    by_cases h : ["exported"] ∈ dirs
    · rw [if_pos h]; left; rfl
    · rw [if_neg h]; right; decide
  · rfl

/-- Python `\s`: the six ASCII whitespace characters. -/
def isPySpace (c : Char) : Bool :=
  c = ' ' || c = '\t' || c = '\n' || c = '\r' || c = '\x0b' || c = '\x0c'

/-- Length of the whitespace run starting at position `i` (the span a
greedy `\s*` consumes there). -/
def wsRun (s : List Char) (i : Nat) : Nat :=
  ((s.drop i).takeWhile isPySpace).length

/-- Length of the `=` run starting at position `i` (greedy `=+`). -/
def eqRun (s : List Char) (i : Nat) : Nat :=
  ((s.drop i).takeWhile (fun c => c = '=')).length

/-- Position of the newline ending the line containing position `i` (or the
end of the string): greedy `.*` starting at `i` may reach up to here. -/
def eolFrom (s : List Char) (i : Nat) : Nat :=
  i + ((s.drop i).takeWhile (fun c => c ≠ '\n')).length

/-- Largest `g` with `lo ≤ g ≤ hi` and `P g`: the first candidate a greedy
backtracking scan (longest first) accepts. -/
def greatestInRange (P : Nat → Bool) (lo : Nat) : Nat → Option Nat
  | 0 => if lo = 0 ∧ P 0 = true then some 0 else none
  | n + 1 =>
      if lo ≤ n + 1 ∧ P (n + 1) = true then some (n + 1)
      else greatestInRange P lo n

/-- Least `i < n` with `P i`: the position `re.search` reports, scanning
start positions left to right. -/
def leastSuchThat (P : Nat → Bool) : Nat → Option Nat
  | 0 => none
  | n + 1 =>
      match leastSuchThat P n with
      | some i => some i
      | none => if P n then some n else none

/-- `HEADER_REGEX = (=+) ?(.*) ?=+` matched at position `i`, yielding
`(match end, length of group 1, group 2)`.  Backtracking resolves as
follows: `(=+)` takes the whole run when a later `=` exists on the line
(then ` ?` eats one following space if present, greedy `(.*)` backtracks
only to the line's last `=`, and the final `=+` takes exactly that one);
with no later `=` on the line, `(=+)` backs off one character so the final
`=+` can take it (needs a run of at least two). -/
def headerMatchAt (s : List Char) (i : Nat) : Option (Nat × Nat × List Char) :=
  if s[i]? = some '=' then
    match greatestInRange (fun p => s[p]? == some '=') (i + eqRun s i)
        (eolFrom s i - 1) with
    | some lastEq =>
        some (lastEq + 1, eqRun s i,
          (s.drop (if s[i + eqRun s i]? = some ' '
              then i + eqRun s i + 1 else i + eqRun s i)).take
            (lastEq - (if s[i + eqRun s i]? = some ' '
              then i + eqRun s i + 1 else i + eqRun s i)))
    | none =>
        if 2 ≤ eqRun s i then some (i + eqRun s i, eqRun s i - 1, [])
        else none
  else none

/-- `HEADER_REGEX.search`: leftmost match, as `(start, end, group1 length,
group 2)`. -/
def headerFind (s : List Char) : Option (Nat × Nat × Nat × List Char) :=
  match leastSuchThat (fun i => (headerMatchAt s i).isSome) s.length with
  | none => none
  | some i =>
      match headerMatchAt s i with
      | none => none
      | some (en, m1, m2) => some (i, en, m1, m2)

/-- `replace_a_header`: `"#" * len(m[1]) + " " + m[2] + "\n"`. -/
def replace_a_header (m1 : Nat) (m2 : List Char) : List Char :=
  List.replicate m1 '#' ++ ' ' :: m2 ++ ['\n']

/-- `custom_re_sub`: replace the leftmost match, dropping one extra
character after the match end (`text[m.end() + 1:]`), and re-scan from the
start; `none` when the fuel runs out (the Python loop not yet finished) or
a replacer faults. -/
def custom_re_sub_fuel {μ : Type} (find : List Char → Option (Nat × Nat × μ))
    (rep : μ → Option (List Char)) : Nat → List Char → Option (List Char)
  | 0, _ => none
  | fuel + 1, text =>
      match find text with
      | none => some text
      | some (st, en, m) =>
          match rep m with
          | none => none
          | some r =>
              custom_re_sub_fuel find rep fuel
                (text.take st ++ r ++ text.drop (en + 1))

/-- `Document.clean_headers`: `custom_re_sub(HEADER_REGEX, replace_a_header,
content)`.  Each iteration removes at least one `=`, so `count('=') + 1`
rounds of fuel always complete the loop. -/
def clean_headers (content : List Char) : Option (List Char) :=
  custom_re_sub_fuel headerFind (fun m => some (replace_a_header m.1 m.2))
    (content.countP (fun c => c = '=') + 1) content

/-- Tail `(.*\S)` then `\s*\]\]` of both link regexes, matched ending at
`g` (exclusive): the character before `g` is the group's final `\S`, then
a deterministic greedy `\s*` run must hit a literal `]]`. -/
def internalEndP (s : List Char) (g : Nat) : Bool :=
  (match s[g - 1]? with
   | some c => !isPySpace c
   | none => false) &&
  (s[g + wsRun s g]? == some ']') && (s[g + wsRun s g + 1]? == some ']')

/-- `INTERNAL_LINK_REGEX = \[\[\s*(?P<slug>.*\S)\s*\]\]` matched at
position `i`, yielding `(match end, slug group)`.  After the literal `[[`,
the leading `\s*` deterministically takes its whole run; the greedy group
backtracks from the line end to the largest `g` accepted by
`internalEndP`. -/
def internalMatchAt (s : List Char) (i : Nat) : Option (Nat × List Char) :=
  if s[i]? = some '[' ∧ s[i + 1]? = some '[' then
    match greatestInRange (internalEndP s) (i + 2 + wsRun s (i + 2) + 1)
        (eolFrom s (i + 2 + wsRun s (i + 2))) with
    | some g =>
        some (g + wsRun s g + 2,
          (s.drop (i + 2 + wsRun s (i + 2))).take (g - (i + 2 + wsRun s (i + 2))))
    | none => none
  else none

/-- `INTERNAL_LINK_REGEX.search`: leftmost match as `(start, end, slug)`. -/
def internalFind (s : List Char) : Option (Nat × Nat × List Char) :=
  match leastSuchThat (fun i => (internalMatchAt s i).isSome) s.length with
  | none => none
  | some i =>
      match internalMatchAt s i with
      | none => none
      | some (en, slug) => some (i, en, slug)

/-- `str(path)` of a parts list: `.` for the empty relative path, else the
segments joined by `/`. -/
def pathToString (segs : List String) : List Char :=
  if segs.isEmpty then ['.']
  else (String.intercalate "/" segs).toList

/-- `render_link`: `f"[{text}]({regressive_relative_to(from_, to)})"`. -/
def render_link (from_dir : List String) (to_path : List String)
    (text : List Char) : List Char :=
  '[' :: text ++ ']' :: '(' ::
    pathToString (regressive_relative_to from_dir to_path) ++ [')']

/-- `replace_a_link_by_slug`: resolve the normalized slug through the Slug
Index; on a hit, a relative link titled with the target's title, otherwise
a plain link whose text and target are both the normalized slug. -/
def replace_a_link_by_slug (idx : List (List Char × Document))
    (parent_dir : List String) (url : List Char) : Option (List Char) :=
  match format_slug url with
  | none => none
  | some slug =>
      match alookup idx slug with
      | some d => some (render_link parent_dir d.path d.title)
      | none => some ('[' :: slug ++ ']' :: '(' :: slug ++ [')'])

/-- Inner `\s*\|\s*` bridge plus text group of `LINK_REGEX`, entered with
the pipe at position `t`: the text group's end is again the largest
position `internalEndP` accepts after the post-pipe whitespace run. -/
def linkInnerEnd (s : List Char) (t : Nat) : Option Nat :=
  greatestInRange (internalEndP s) (t + 1 + wsRun s (t + 1) + 1)
    (eolFrom s (t + 1 + wsRun s (t + 1)))

/-- Candidate end `g` for the url group of `LINK_REGEX`: final `\S` before
`g`, then a deterministic `\s*` run must hit the literal `|`, and the rest
of the pattern must match after that pipe. -/
def linkUrlP (s : List Char) (g : Nat) : Bool :=
  (match s[g - 1]? with
   | some c => !isPySpace c
   | none => false) &&
  (s[g + wsRun s g]? == some '|') && (linkInnerEnd s (g + wsRun s g)).isSome

/-- `LINK_REGEX = \[\[\s*(?P<url>.*\S)\s*\|\s*(?P<text>.*\S)\s*\]\]`
matched at position `i`, yielding `(match end, url, text)`. -/
def linkMatchAt (s : List Char) (i : Nat) : Option (Nat × List Char × List Char) :=
  if s[i]? = some '[' ∧ s[i + 1]? = some '[' then
    match greatestInRange (linkUrlP s) (i + 2 + wsRun s (i + 2) + 1)
        (eolFrom s (i + 2 + wsRun s (i + 2))) with
    | some g =>
        match linkInnerEnd s (g + wsRun s g) with
        | some h =>
            some (h + wsRun s h + 2,
              (s.drop (i + 2 + wsRun s (i + 2))).take
                (g - (i + 2 + wsRun s (i + 2))),
              (s.drop (g + wsRun s g + 1 + wsRun s (g + wsRun s g + 1))).take
                (h - (g + wsRun s g + 1 + wsRun s (g + wsRun s g + 1))))
        | none => none
    | none => none
  else none

/-- `LINK_REGEX.search`: leftmost match as `(start, end, (url, text))`. -/
def linkFind (s : List Char) : Option (Nat × Nat × (List Char × List Char)) :=
  match leastSuchThat (fun i => (linkMatchAt s i).isSome) s.length with
  | none => none
  | some i =>
      match linkMatchAt s i with
      | none => none
      | some (en, url, text) => some (i, en, (url, text))

/-- `replace_a_raw_link`: on a Slug Index hit, a relative link keeping the
original display text; otherwise a plain link with the literal url. -/
def replace_a_raw_link (idx : List (List Char × Document))
    (parent_dir : List String) (url text : List Char) : Option (List Char) :=
  match format_slug url with
  | none => none
  | some slug =>
      match alookup idx slug with
      | some d => some (render_link parent_dir d.path text)
      | none => some ('[' :: text ++ ']' :: '(' :: url ++ [')'])

/-- `re.sub(LINK_REGEX, replace_a_raw_link, content)`: single left-to-right
pass, resuming after each match end. -/
def linkSubF (idx : List (List Char × Document)) (parent_dir : List String) :
    Nat → List Char → Option (List Char)
  | 0, _ => none
  | fuel + 1, t =>
      match linkFind t with
      | none => some t
      | some (st, en, (url, text)) =>
          match replace_a_raw_link idx parent_dir url text with
          | none => none
          | some r =>
              match linkSubF idx parent_dir fuel (t.drop en) with
              | none => none
              | some rest => some (t.take st ++ r ++ rest)

/-- `Document.clean_links`: the `LINK_REGEX` substitution pass, then the
`custom_re_sub` loop over `INTERNAL_LINK_REGEX`; both replacers resolve
relative to `self.path.parent`. -/
def clean_links (fuel : Nat) (idx : List (List Char × Document))
    (self_path : List String) (content : List Char) : Option (List Char) :=
  match linkSubF idx self_path.dropLast fuel content with
  | none => none
  | some c1 =>
      custom_re_sub_fuel internalFind
        (replace_a_link_by_slug idx self_path.dropLast) fuel c1

theorem custom_re_sub_fuel_step {μ : Type}
    (find : List Char → Option (Nat × Nat × μ)) (rep : μ → Option (List Char))
    (fuel : Nat) (t : List Char) (st en : Nat) (m : μ) (r : List Char)
    (hf : find t = some (st, en, m)) (hr : rep m = some r) :
    custom_re_sub_fuel find rep (fuel + 1) t =
      custom_re_sub_fuel find rep fuel (t.take st ++ r ++ t.drop (en + 1)) := by
  simp only [custom_re_sub_fuel, hf, hr]

theorem custom_re_sub_fuel_fixpoint {μ : Type}
    (find : List Char → Option (Nat × Nat × μ)) (rep : μ → Option (List Char)) :
    ∀ (fuel : Nat) (t r : List Char),
      custom_re_sub_fuel find rep fuel t = some r → find r = none := by
  intro fuel
  induction fuel with
  | zero =>
      intro t r h
      exact absurd h (by simp [custom_re_sub_fuel])
  | succ n ih =>
      intro t r h
      rw [custom_re_sub_fuel] at h
      cases hf : find t with
      | none =>
          simp only [hf] at h
          injection h with h
          subst h
          exact hf
      | some x =>
          obtain ⟨st, en, m⟩ := x
          simp only [hf] at h
          cases hr : rep m with
          | none => simp only [hr] at h; exact absurd h (by simp)
          | some r' =>
              simp only [hr] at h
              exact ih _ r h

/-- C3 (amended): the iterative rewrite loop used by heading normalization
and bare-slug rewriting replaces occurrences until none remains, but each
individual replacement consumes the matched span PLUS the one character
immediately following it (`text[m.end() + 1:]`), which is dropped from the
output. -/
theorem C3_rewrite_loop_amended :
    (∀ (μ : Type) (find : List Char → Option (Nat × Nat × μ))
        (rep : μ → Option (List Char)) (fuel : Nat) (t : List Char)
        (st en : Nat) (m : μ) (r : List Char),
        find t = some (st, en, m) → rep m = some r →
        custom_re_sub_fuel find rep (fuel + 1) t =
          custom_re_sub_fuel find rep fuel (t.take st ++ r ++ t.drop (en + 1))) ∧
    (∀ (t r : List Char), clean_headers t = some r → headerFind r = none) :=
  ⟨fun _ find rep fuel t st en m r hf hr =>
      custom_re_sub_fuel_step find rep fuel t st en m r hf hr,
    fun t r h => custom_re_sub_fuel_fixpoint _ _ _ t r h⟩

theorem C3_rewrite_loop_amended_witness :
    (custom_re_sub_fuel headerFind (fun m => some (replace_a_header m.1 m.2)) 3
        ("= a =X".toList) =
      custom_re_sub_fuel headerFind (fun m => some (replace_a_header m.1 m.2)) 2
        (("= a =X".toList).take 0 ++ replace_a_header 1 ("a ".toList) ++
          ("= a =X".toList).drop 6)) ∧
    headerFind ("# a \n".toList) = none :=
  ⟨C3_rewrite_loop_amended.1 (Nat × List Char) headerFind
      (fun m => some (replace_a_header m.1 m.2)) 2 ("= a =X".toList)
      0 5 (1, "a ".toList) (replace_a_header 1 ("a ".toList)) (by decide) rfl,
    C3_rewrite_loop_amended.2 ("= a =X".toList) ("# a \n".toList) (by decide)⟩

/-- C3 fails as stated: rewriting the heading in `= a =X` silently drops
the `X` immediately following the matched span. -/
theorem C3_off_by_one_counterexample :
    clean_headers ("= a =X".toList) = some ("# a \n".toList) ∧
      'X' ∈ ("= a =X".toList) ∧ 'X' ∉ ("# a \n".toList) := by
  decide

/-- C6: heading normalization does NOT produce `## Section` / `# Top`; the
greedy `(.*)` group defeats the ` ?=+` tail, leaving one `=` of the closing
delimiter (and a trailing space) in the heading text, plus the appended
newline: the code is a slip against its own intent. -/
theorem C6_header_normalization_divergence :
    clean_headers ("== Section ==".toList) = some ("## Section =\n".toList) ∧
      clean_headers ("= Top =".toList) = some ("# Top \n".toList) ∧
      some ("## Section =\n".toList) ≠ some ("## Section".toList) ∧
      some ("# Top \n".toList) ≠ some ("# Top".toList) := by
  decide

theorem greatestInRange_some (P : Nat → Bool) (lo : Nat) :
    ∀ (hi g : Nat), greatestInRange P lo hi = some g →
      lo ≤ g ∧ g ≤ hi ∧ P g = true := by
  intro hi
  induction hi with
  | zero =>
      intro g h
      rw [greatestInRange] at h
      by_cases hc : lo = 0 ∧ P 0 = true
      · rw [if_pos hc] at h
        injection h with h
        subst h
        exact ⟨Nat.le_of_eq hc.1, Nat.le_refl 0, hc.2⟩
      · rw [if_neg hc] at h
        exact absurd h (by simp)
  | succ n ih =>
      intro g h
      rw [greatestInRange] at h
      by_cases hc : lo ≤ n + 1 ∧ P (n + 1) = true
      · rw [if_pos hc] at h
        injection h with h
        subst h
        exact ⟨hc.1, Nat.le_refl _, hc.2⟩
      · rw [if_neg hc] at h
        obtain ⟨h1, h2, h3⟩ := ih g h
        exact ⟨h1, Nat.le_succ_of_le h2, h3⟩

theorem greatestInRange_eq_some (P : Nat → Bool) (lo : Nat) :
    ∀ (hi g : Nat), lo ≤ g → g ≤ hi → P g = true →
      (∀ j, g < j → j ≤ hi → P j = false) →
      greatestInRange P lo hi = some g := by
  intro hi
  induction hi with
  | zero =>
      intro g h1 h2 h3 _
      obtain rfl : g = 0 := Nat.le_zero.mp h2
      rw [greatestInRange, if_pos ⟨Nat.le_zero.mp h1, h3⟩]
  | succ n ih =>
      intro g h1 h2 h3 h4
      by_cases hg : g = n + 1
      · subst hg
        rw [greatestInRange, if_pos ⟨h1, h3⟩]
      · have hgn : g ≤ n := by omega
        have hneg : ¬(lo ≤ n + 1 ∧ P (n + 1) = true) := by
          rintro ⟨-, hc⟩
          have := h4 (n + 1) (by omega) (Nat.le_refl _)
          rw [hc] at this
          exact absurd this (by simp)
        rw [greatestInRange, if_neg hneg]
        exact ih g h1 hgn h3 fun j hj1 hj2 => h4 j hj1 (Nat.le_succ_of_le hj2)

theorem greatestInRange_none_of (P : Nat → Bool) (lo : Nat)
    (hall : ∀ j, P j = false) : ∀ hi, greatestInRange P lo hi = none := by
  intro hi
  induction hi with
  | zero =>
      rw [greatestInRange, if_neg]
      rintro ⟨-, hc⟩
      rw [hall 0] at hc
      exact absurd hc (by simp)
  | succ n ih =>
      rw [greatestInRange, if_neg, ih]
      rintro ⟨-, hc⟩
      rw [hall (n + 1)] at hc
      exact absurd hc (by simp)

theorem leastSuchThat_some_P (P : Nat → Bool) :
    ∀ (n i : Nat), leastSuchThat P n = some i → P i = true := by
  intro n
  induction n with
  | zero => intro i h; exact absurd h (by simp [leastSuchThat])
  | succ n ih =>
      intro i h
      rw [leastSuchThat] at h
      cases hin : leastSuchThat P n with
      | some j =>
          simp only [hin] at h
          injection h with h
          subst h
          exact ih _ hin
      | none =>
          simp only [hin] at h
          by_cases hp : P n = true
          · rw [if_pos hp] at h
            injection h with h
            subst h
            exact hp
          · rw [if_neg hp] at h
            exact absurd h (by simp)

theorem leastSuchThat_zero (P : Nat → Bool) (h : P 0 = true) :
    ∀ n, leastSuchThat P (n + 1) = some 0 := by
  intro n
  induction n with
  | zero => simp [leastSuchThat, h]
  | succ n ih => rw [leastSuchThat, ih]

theorem leastSuchThat_none_of (P : Nat → Bool) :
    ∀ n, (∀ i, i < n → P i = false) → leastSuchThat P n = none := by
  intro n
  induction n with
  | zero => intro _; rfl
  | succ n ih =>
      intro h
      rw [leastSuchThat, ih fun i hi => h i (Nat.lt_succ_of_lt hi)]
      simp [h n (Nat.lt_succ_self n)]

theorem getElem?_lt {α : Type} (l : List α) (i : Nat) (a : α)
    (h : l[i]? = some a) : i < l.length := by
  by_contra hge
  rw [List.getElem?_eq_none (Nat.le_of_not_lt hge)] at h
  exact absurd h (by simp)

theorem internalEndP_bound (s : List Char) (g : Nat)
    (h : internalEndP s g = true) : g - 1 < s.length := by
  rw [internalEndP, Bool.and_eq_true, Bool.and_eq_true] at h
  obtain ⟨⟨hA, hB⟩, hC⟩ := h
  cases hv : s[g - 1]? with
  | none => simp only [hv] at hA; exact absurd hA (by simp)
  | some c => exact getElem?_lt s (g - 1) c hv

theorem linkUrlP_bound (s : List Char) (g : Nat)
    (h : linkUrlP s g = true) : g - 1 < s.length := by
  rw [linkUrlP, Bool.and_eq_true, Bool.and_eq_true] at h
  obtain ⟨⟨hA, hB⟩, hC⟩ := h
  cases hv : s[g - 1]? with
  | none => simp only [hv] at hA; exact absurd hA (by simp)
  | some c => exact getElem?_lt s (g - 1) c hv

theorem take_drop_ne_nil (s : List Char) (a g : Nat)
    (h1 : a + 1 ≤ g) (h2 : g - 1 < s.length) :
    (s.drop a).take (g - a) ≠ [] := by
  intro hnil
  have hlen := congrArg List.length hnil
  rw [List.length_take, List.length_drop, List.length_nil] at hlen
  rw [Nat.min_def] at hlen
  split_ifs at hlen <;> omega

theorem format_slug_isSome_of_ne_nil (l : List Char) (h : l ≠ []) :
    (format_slug l).isSome := by
  rw [format_slug]
  cases hl : l.getLast? with
  | none =>
      rw [List.getLast?_eq_none_iff] at hl
      exact absurd hl h
  | some c => rfl

theorem internalMatchAt_group (s : List Char) (i en : Nat) (slug : List Char)
    (h : internalMatchAt s i = some (en, slug)) :
    slug ≠ [] ∧ (format_slug slug).isSome := by
  rw [internalMatchAt] at h
  by_cases hbr : s[i]? = some '[' ∧ s[i + 1]? = some '['
  · rw [if_pos hbr] at h
    cases hg : greatestInRange (internalEndP s) (i + 2 + wsRun s (i + 2) + 1)
        (eolFrom s (i + 2 + wsRun s (i + 2))) with
    | none => simp only [hg] at h; exact absurd h (by simp)
    | some g =>
        simp only [hg] at h
        rw [Option.some_inj, Prod.mk.injEq] at h
        obtain ⟨hen, hslug⟩ := h
        obtain ⟨hlo, hhi, hP⟩ := greatestInRange_some _ _ _ _ hg
        have hb := internalEndP_bound s g hP
        have hne : slug ≠ [] := by
          rw [← hslug]
          exact take_drop_ne_nil s _ g hlo hb
        exact ⟨hne, format_slug_isSome_of_ne_nil slug hne⟩
  · rw [if_neg hbr] at h
    exact absurd h (by simp)

theorem linkMatchAt_url (s : List Char) (i en : Nat) (url text : List Char)
    (h : linkMatchAt s i = some (en, url, text)) :
    url ≠ [] ∧ (format_slug url).isSome := by
  rw [linkMatchAt] at h
  by_cases hbr : s[i]? = some '[' ∧ s[i + 1]? = some '['
  · rw [if_pos hbr] at h
    cases hg : greatestInRange (linkUrlP s) (i + 2 + wsRun s (i + 2) + 1)
        (eolFrom s (i + 2 + wsRun s (i + 2))) with
    | none => simp only [hg] at h; exact absurd h (by simp)
    | some g =>
        simp only [hg] at h
        cases hh : linkInnerEnd s (g + wsRun s g) with
        | none => simp only [hh] at h; exact absurd h (by simp)
        | some hEnd =>
            simp only [hh] at h
            rw [Option.some_inj, Prod.mk.injEq] at h
            obtain ⟨hen, hrest⟩ := h
            rw [Prod.mk.injEq] at hrest
            obtain ⟨hurl, htext⟩ := hrest
            obtain ⟨hlo, hhi, hP⟩ := greatestInRange_some _ _ _ _ hg
            have hb := linkUrlP_bound s g hP
            have hne : url ≠ [] := by
              rw [← hurl]
              exact take_drop_ne_nil s _ g hlo hb
            exact ⟨hne, format_slug_isSome_of_ne_nil url hne⟩
  · rw [if_neg hbr] at h
    exact absurd h (by simp)

theorem internalFind_matchAt (s : List Char) (st en : Nat) (slug : List Char)
    (h : internalFind s = some (st, en, slug)) :
    internalMatchAt s st = some (en, slug) := by
  rw [internalFind] at h
  cases hls : leastSuchThat (fun i => (internalMatchAt s i).isSome) s.length with
  | none => simp only [hls] at h; exact absurd h (by simp)
  | some i =>
      simp only [hls] at h
      cases hm : internalMatchAt s i with
      | none => simp only [hm] at h; exact absurd h (by simp)
      | some x =>
          obtain ⟨en', slug'⟩ := x
          simp only [hm] at h
          rw [Option.some_inj, Prod.mk.injEq] at h
          obtain ⟨h1, h2⟩ := h
          rw [Prod.mk.injEq] at h2
          obtain ⟨h2, h3⟩ := h2
          subst h1
          subst h2
          subst h3
          exact hm

theorem linkFind_matchAt (s : List Char) (st en : Nat) (url text : List Char)
    (h : linkFind s = some (st, en, (url, text))) :
    linkMatchAt s st = some (en, url, text) := by
  rw [linkFind] at h
  cases hls : leastSuchThat (fun i => (linkMatchAt s i).isSome) s.length with
  | none => simp only [hls] at h; exact absurd h (by simp)
  | some i =>
      simp only [hls] at h
      cases hm : linkMatchAt s i with
      | none => simp only [hm] at h; exact absurd h (by simp)
      | some x =>
          obtain ⟨en', url', text'⟩ := x
          simp only [hm] at h
          rw [Option.some_inj, Prod.mk.injEq] at h
          obtain ⟨h1, h2⟩ := h
          rw [Prod.mk.injEq] at h2
          obtain ⟨h2, h3⟩ := h2
          rw [Prod.mk.injEq] at h3
          obtain ⟨h3, h4⟩ := h3
          subst h1
          subst h2
          subst h3
          subst h4
          exact hm

/-- C10: every url/slug group either link regex captures ends in a
mandatory non-whitespace character, hence is nonempty, so `format_slug` —
whose `url[-1]` faults only on the empty string — never faults during link
rewriting. -/
theorem C10_format_slug_total_on_captures :
    (∀ (s : List Char) (st en : Nat) (slug : List Char),
        internalFind s = some (st, en, slug) →
        slug ≠ [] ∧ (format_slug slug).isSome) ∧
    (∀ (s : List Char) (st en : Nat) (url text : List Char),
        linkFind s = some (st, en, (url, text)) →
        url ≠ [] ∧ (format_slug url).isSome) :=
  ⟨fun s st en slug h =>
      internalMatchAt_group s st en slug (internalFind_matchAt s st en slug h),
    fun s st en url text h =>
      linkMatchAt_url s st en url text (linkFind_matchAt s st en url text h)⟩

theorem C10_format_slug_total_on_captures_witness :
    (internalFind ("[[a]]".toList) = some (0, 5, ['a']) ∧
      ['a'] ≠ [] ∧ (format_slug ['a']).isSome) ∧
    (linkFind ("[[a|b]]".toList) = some (0, 7, (['a'], ['b'])) ∧
      ['a'] ≠ [] ∧ (format_slug ['a']).isSome) :=
  ⟨⟨by decide,
      C10_format_slug_total_on_captures.1 ("[[a]]".toList) 0 5 ['a'] (by decide)⟩,
    ⟨by decide,
      C10_format_slug_total_on_captures.2 ("[[a|b]]".toList) 0 7 ['a'] ['b']
        (by decide)⟩⟩

/-- Decidable test for an occurrence of `[[` — the mandatory opening of
both link tokens. -/
def hasDoubleBracket : List Char → Bool
  | [] => false
  | [_] => false
  | c1 :: c2 :: rest => (c1 == '[' && c2 == '[') || hasDoubleBracket (c2 :: rest)

theorem hasDoubleBracket_false : ∀ (s : List Char), hasDoubleBracket s = false →
    ∀ i, ¬(s[i]? = some '[' ∧ s[i + 1]? = some '[') := by
  intro s
  induction s with
  | nil => intro _ i hcon; simp at hcon
  | cons c1 s ih =>
      cases s with
      | nil =>
          intro _ i hcon
          obtain ⟨-, hb⟩ := hcon
          cases i with
          | zero => simp at hb
          | succ j => simp at hb
      | cons c2 rest =>
          intro h i hcon
          rw [hasDoubleBracket, Bool.or_eq_false_iff] at h
          obtain ⟨h1, h2⟩ := h
          cases i with
          | zero =>
              obtain ⟨ha, hb⟩ := hcon
              simp only [List.getElem?_cons_zero, Option.some_inj] at ha
              simp only [List.getElem?_cons_succ, List.getElem?_cons_zero,
                Option.some_inj] at hb
              rw [ha, hb] at h1
              simp at h1
          | succ j =>
              refine ih h2 j ?_
              simpa using hcon

theorem internalMatchAt_none_of_no_db (s : List Char)
    (h : hasDoubleBracket s = false) (i : Nat) : internalMatchAt s i = none := by
  rw [internalMatchAt, if_neg (hasDoubleBracket_false s h i)]

theorem internalFind_none_of_no_db (s : List Char)
    (h : hasDoubleBracket s = false) : internalFind s = none := by
  rw [internalFind, leastSuchThat_none_of _ s.length ?_]
  intro i _
  rw [internalMatchAt_none_of_no_db s h i]
  rfl

theorem linkMatchAt_none_of_no_pipe (s : List Char) (hp : '|' ∉ s) (i : Nat) :
    linkMatchAt s i = none := by
  have hall : ∀ g, linkUrlP s g = false := by
    intro g
    rw [linkUrlP]
    have hpipe : (s[g + wsRun s g]? == some '|') = false := by
      cases hv : s[g + wsRun s g]? with
      | none => rfl
      | some c =>
          have hc : c ∈ s := List.getElem?_mem hv
          have hcc : ¬c = '|' := fun hcc => hp (hcc ▸ hc)
          simp [hcc]
    rw [hpipe]
    simp
  rw [linkMatchAt]
  by_cases hbr : s[i]? = some '[' ∧ s[i + 1]? = some '['
  · rw [if_pos hbr,
      greatestInRange_none_of (linkUrlP s) _ hall
        (eolFrom s (i + 2 + wsRun s (i + 2)))]
  · rw [if_neg hbr]

theorem linkFind_none_of_no_pipe (s : List Char) (hp : '|' ∉ s) :
    linkFind s = none := by
  rw [linkFind, leastSuchThat_none_of _ s.length ?_]
  intro i _
  rw [linkMatchAt_none_of_no_pipe s hp i]
  rfl

theorem linkSubF_id_of_no_pipe (idx : List (List Char × Document))
    (pd : List String) (fuel : Nat) (t : List Char) (hp : '|' ∉ t) :
    linkSubF idx pd (fuel + 1) t = some t := by
  simp only [linkSubF, linkFind_none_of_no_pipe t hp]

theorem takeWhile_all {p : Char → Bool} :
    ∀ (l : List Char), (∀ c ∈ l, p c = true) → l.takeWhile p = l := by
  intro l
  induction l with
  | nil => intro _; rfl
  | cons a l ih =>
      intro h
      rw [List.takeWhile_cons, if_pos (h a (List.mem_cons_self a l)),
        ih fun c hc => h c (List.mem_cons_of_mem a hc)]

theorem c5_repr (s : List Char) :
    '[' :: '[' :: ' ' :: s ++ [' ', ']', ']'] =
      ('[' :: '[' :: ' ' :: s) ++ [' ', ']', ']'] := by
  simp

theorem c5_len (s : List Char) :
    ('[' :: '[' :: ' ' :: s ++ [' ', ']', ']']).length = s.length + 6 := by
  simp

theorem c5_wsRun2 (s : List Char) (hne : s ≠ [])
    (hchars : ∀ c ∈ s, isPySpace c = false) :
    wsRun ('[' :: '[' :: ' ' :: s ++ [' ', ']', ']']) 2 = 1 := by
  cases s with
  | nil => exact absurd rfl hne
  | cons c0 s' =>
      have h0 := hchars c0 (List.mem_cons_self c0 s')
      rw [wsRun]
      show ((' ' :: (c0 :: (s' ++ [' ', ']', ']']))).takeWhile isPySpace).length = 1
      rw [List.takeWhile_cons, if_pos (by decide), List.takeWhile_cons,
        if_neg (by rw [h0]; exact fun hc => absurd hc (by decide))]
      rfl

theorem c5_eol (s : List Char)
    (hchars : ∀ c ∈ s, isPySpace c = false) :
    eolFrom ('[' :: '[' :: ' ' :: s ++ [' ', ']', ']']) 3 = s.length + 6 := by
  rw [eolFrom]
  show 3 + ((s ++ [' ', ']', ']']).takeWhile (fun c => c ≠ '\n')).length =
    s.length + 6
  rw [takeWhile_all]
  · simp
    omega
  · intro c hc
    rcases List.mem_append.mp hc with h | h
    · have hws := hchars c h
      simp only [decide_eq_true_eq]
      intro hceq
      rw [hceq] at hws
      exact absurd hws (by decide)
    · simp only [List.mem_cons, List.not_mem_nil, or_false] at h
      rcases h with rfl | rfl | rfl <;> decide

theorem c5_idx (s : List Char) (k : Nat) :
    ('[' :: '[' :: ' ' :: s ++ [' ', ']', ']'])[s.length + 3 + k]? =
      [' ', ']', ']'][k]? := by
  rw [c5_repr,
    List.getElem?_append_right (by simp only [List.length_cons]; omega)]
  have e : s.length + 3 + k - ('[' :: '[' :: ' ' :: s).length = k := by
    simp only [List.length_cons]
    omega
  rw [e]

theorem c5_dropL3 (s : List Char) :
    ('[' :: '[' :: ' ' :: s ++ [' ', ']', ']']).drop (s.length + 3) =
      [' ', ']', ']'] := by
  rw [c5_repr,
    show s.length + 3 = ('[' :: '[' :: ' ' :: s).length by simp,
    List.drop_left]

theorem c5_wsRunL3 (s : List Char) :
    wsRun ('[' :: '[' :: ' ' :: s ++ [' ', ']', ']']) (s.length + 3) = 1 := by
  rw [wsRun, c5_dropL3]
  decide

theorem c5_wsRunL5 (s : List Char) :
    wsRun ('[' :: '[' :: ' ' :: s ++ [' ', ']', ']']) (s.length + 5) = 0 := by
  rw [wsRun, show s.length + 5 = s.length + 3 + 2 by omega, ← List.drop_drop,
    c5_dropL3]
  decide

theorem c5_wsRunL6 (s : List Char) :
    wsRun ('[' :: '[' :: ' ' :: s ++ [' ', ']', ']']) (s.length + 6) = 0 := by
  rw [wsRun, List.drop_eq_nil_of_le (by rw [c5_len])]
  rfl

theorem c5_idx_none (s : List Char) :
    ('[' :: '[' :: ' ' :: s ++ [' ', ']', ']'])[s.length + 6]? = none :=
  List.getElem?_eq_none (by rw [c5_len])

theorem c5_last (s : List Char) (hne : s ≠ [])
    (hchars : ∀ c ∈ s, isPySpace c = false) :
    ∃ cl, ('[' :: '[' :: ' ' :: s ++ [' ', ']', ']'])[s.length + 2]? = some cl ∧
      isPySpace cl = false := by
  rcases List.eq_nil_or_concat s with h | ⟨s₀, cl, h⟩
  · exact absurd h hne
  · rw [List.concat_eq_append] at h
    have hcl : cl ∈ s := by
      rw [h]; exact List.mem_append_right _ (List.mem_singleton_self cl)
    refine ⟨cl, ?_, hchars cl hcl⟩
    subst h
    rw [show '[' :: '[' :: ' ' :: (s₀ ++ [cl]) ++ [' ', ']', ']'] =
        ('[' :: '[' :: ' ' :: s₀) ++ (cl :: [' ', ']', ']']) by simp,
      List.getElem?_append_right
        (by simp only [List.length_append, List.length_cons, List.length_nil]
            omega)]
    have e : (s₀ ++ [cl]).length + 2 - ('[' :: '[' :: ' ' :: s₀).length = 0 := by
      simp only [List.length_append, List.length_cons, List.length_nil]
      omega
    rw [e]
    rfl

theorem c5_endP_true (s : List Char) (hne : s ≠ [])
    (hchars : ∀ c ∈ s, isPySpace c = false) :
    internalEndP ('[' :: '[' :: ' ' :: s ++ [' ', ']', ']']) (s.length + 3) =
      true := by
  obtain ⟨cl, hcl, hclw⟩ := c5_last s hne hchars
  rw [internalEndP, show s.length + 3 - 1 = s.length + 2 by omega, hcl,
    show s.length + 3 +
        wsRun ('[' :: '[' :: ' ' :: s ++ [' ', ']', ']']) (s.length + 3) =
      s.length + 3 + 1 by rw [c5_wsRunL3]]
  rw [show s.length + 3 + 1 + 1 = s.length + 3 + 2 by omega,
    c5_idx s 1, c5_idx s 2]
  simp [hclw]

theorem c5_endP_max (s : List Char) :
    ∀ j, s.length + 3 < j → j ≤ s.length + 6 →
      internalEndP ('[' :: '[' :: ' ' :: s ++ [' ', ']', ']']) j = false := by
  intro j hj1 hj2
  have hcases : j = s.length + 4 ∨ j = s.length + 5 ∨ j = s.length + 6 := by
    omega
  rcases hcases with rfl | rfl | rfl
  · rw [internalEndP, show s.length + 4 - 1 = s.length + 3 + 0 by omega,
      c5_idx s 0]
    simp [isPySpace]
  · rw [internalEndP, show s.length + 5 - 1 = s.length + 3 + 1 by omega,
      c5_idx s 1,
      show s.length + 5 +
          wsRun ('[' :: '[' :: ' ' :: s ++ [' ', ']', ']']) (s.length + 5) =
        s.length + 3 + 2 by rw [c5_wsRunL5],
      c5_idx s 2,
      show s.length + 3 + 2 + 1 = s.length + 6 by omega,
      c5_idx_none s]
    decide
  · have hnone7 : ('[' :: '[' :: ' ' :: s ++ [' ', ']', ']'])[s.length + 6 + 1]? =
        none := List.getElem?_eq_none (by rw [c5_len]; omega)
    rw [internalEndP, show s.length + 6 - 1 = s.length + 3 + 2 by omega,
      c5_idx s 2,
      show s.length + 6 +
          wsRun ('[' :: '[' :: ' ' :: s ++ [' ', ']', ']']) (s.length + 6) =
        s.length + 6 by rw [c5_wsRunL6],
      c5_idx_none s, hnone7]
    decide

theorem internalMatchAt_token (s : List Char) (hne : s ≠ [])
    (hchars : ∀ c ∈ s, isPySpace c = false) :
    internalMatchAt ('[' :: '[' :: ' ' :: s ++ [' ', ']', ']']) 0 =
      some (s.length + 6, s) := by
  have hLpos : 1 ≤ s.length := List.length_pos.mpr hne
  rw [internalMatchAt, if_pos ⟨rfl, rfl⟩]
  have hw2 : wsRun ('[' :: '[' :: ' ' :: s ++ [' ', ']', ']']) (0 + 2) = 1 :=
    c5_wsRun2 s hne hchars
  rw [hw2]
  have heol : eolFrom ('[' :: '[' :: ' ' :: s ++ [' ', ']', ']']) (0 + 2 + 1) =
      s.length + 6 := c5_eol s hchars
  rw [heol]
  have hgr : greatestInRange
      (internalEndP ('[' :: '[' :: ' ' :: s ++ [' ', ']', ']']))
      (0 + 2 + 1 + 1) (s.length + 6) = some (s.length + 3) := by
    apply greatestInRange_eq_some
    · omega
    · omega
    · exact c5_endP_true s hne hchars
    · exact c5_endP_max s
  simp only [hgr]
  have hwL3 : wsRun ('[' :: '[' :: ' ' :: s ++ [' ', ']', ']'])
      (s.length + 3) = 1 := c5_wsRunL3 s
  have hd3 : ('[' :: '[' :: ' ' :: s ++ [' ', ']', ']']).drop (0 + 2 + 1) =
      s ++ [' ', ']', ']'] := rfl
  rw [hwL3, hd3, show s.length + 3 - (0 + 2 + 1) = s.length by omega,
    show s.length + 3 + 1 + 2 = s.length + 6 by omega, List.take_left]

theorem internalFind_token (s : List Char) (hne : s ≠ [])
    (hchars : ∀ c ∈ s, isPySpace c = false) :
    internalFind ('[' :: '[' :: ' ' :: s ++ [' ', ']', ']']) =
      some (0, s.length + 6, s) := by
  have hm := internalMatchAt_token s hne hchars
  rw [internalFind]
  have hls : leastSuchThat
      (fun i => (internalMatchAt ('[' :: '[' :: ' ' :: s ++ [' ', ']', ']']) i).isSome)
      (('[' :: '[' :: ' ' :: s ++ [' ', ']', ']']).length) = some 0 := by
    rw [c5_len]
    exact leastSuchThat_zero _ (by rw [hm]; rfl) (s.length + 5)
  simp only [hls, hm]

/-- C5 (amended): a lone bare-slug token `[[ s ]]` (no pipe, no
whitespace inside the slug) rewrites, when the normalized slug is in the
Slug Index, into a relative link displaying the target document's title;
otherwise into a plain link whose display text and target are both the
NORMALIZED slug (lowercased, trailing-slash) — not the literal slug as
written. -/
theorem C5_bare_slug_rewrite_amended (fuel : Nat)
    (idx : List (List Char × Document)) (self_path : List String)
    (s fsl repl : List Char)
    (hne : s ≠ [])
    (hchars : ∀ c ∈ s, isPySpace c = false ∧ c ≠ '|')
    (hfsl : format_slug s = some fsl)
    (hrepl : repl = (match alookup idx fsl with
      | some d => render_link self_path.dropLast d.path d.title
      | none => '[' :: fsl ++ ']' :: '(' :: fsl ++ [')']))
    (hdb : hasDoubleBracket repl = false) :
    clean_links (fuel + 2) idx self_path
      ('[' :: '[' :: ' ' :: s ++ [' ', ']', ']']) = some repl := by
  have hchars1 : ∀ c ∈ s, isPySpace c = false := fun c hc => (hchars c hc).1
  have hpipe : '|' ∉ ('[' :: '[' :: ' ' :: s ++ [' ', ']', ']']) := by
    intro h
    rcases List.mem_cons.mp h with h | h
    · exact absurd h (by decide)
    rcases List.mem_cons.mp h with h | h
    · exact absurd h (by decide)
    rcases List.mem_cons.mp h with h | h
    · exact absurd h (by decide)
    rcases List.mem_append.mp h with h | h
    · exact absurd rfl (hchars '|' h).2
    · exact absurd h (by decide)
  rw [clean_links]
  have hsub : linkSubF idx self_path.dropLast (fuel + 2)
      ('[' :: '[' :: ' ' :: s ++ [' ', ']', ']']) =
      some ('[' :: '[' :: ' ' :: s ++ [' ', ']', ']']) :=
    linkSubF_id_of_no_pipe idx self_path.dropLast (fuel + 1) _ hpipe
  simp only [hsub]
  have hfind := internalFind_token s hne hchars1
  have hrep : replace_a_link_by_slug idx self_path.dropLast s =
      some (match alookup idx fsl with
        | some d => render_link self_path.dropLast d.path d.title
        | none => '[' :: fsl ++ ']' :: '(' :: fsl ++ [')']) := by
    simp only [replace_a_link_by_slug, hfsl]
    cases alookup idx fsl <;> rfl
  subst hrepl
  have hstep : custom_re_sub_fuel internalFind
      (replace_a_link_by_slug idx self_path.dropLast) (fuel + 2)
      ('[' :: '[' :: ' ' :: s ++ [' ', ']', ']']) =
      custom_re_sub_fuel internalFind
        (replace_a_link_by_slug idx self_path.dropLast) (fuel + 1)
        (('[' :: '[' :: ' ' :: s ++ [' ', ']', ']']).take 0 ++
          (match alookup idx fsl with
            | some d => render_link self_path.dropLast d.path d.title
            | none => '[' :: fsl ++ ']' :: '(' :: fsl ++ [')']) ++
          ('[' :: '[' :: ' ' :: s ++ [' ', ']', ']']).drop (s.length + 6 + 1)) :=
    custom_re_sub_fuel_step internalFind _ (fuel + 1) _ 0 (s.length + 6) s _
      hfind hrep
  rw [hstep,
    List.drop_eq_nil_of_le (by rw [c5_len]; omega), List.take_zero,
    List.nil_append, List.append_nil]
  have hfr : internalFind (match alookup idx fsl with
      | some d => render_link self_path.dropLast d.path d.title
      | none => '[' :: fsl ++ ']' :: '(' :: fsl ++ [')']) = none :=
    internalFind_none_of_no_db _ hdb
  simp only [custom_re_sub_fuel, hfr]

/-- The resolved target document of the C5 witness. -/
def c5docTarget : Document :=
  ⟨1, 1, "P", "foo/".toList, "Foo Title".toList, [], ["exported", "foo.md"]⟩

theorem c5_rrt_witness :
    regressive_relative_to ["exported"] ["exported", "foo.md"] = ["foo.md"] := by
  rw [regressive_relative_to, dif_pos (by decide)]
  rfl

theorem C5_bare_slug_rewrite_amended_witness :
    (("foo".toList : List Char) ≠ [] ∧
      (∀ c ∈ ("foo".toList : List Char), isPySpace c = false ∧ c ≠ '|') ∧
      format_slug ("foo".toList) = some ("foo/".toList) ∧
      hasDoubleBracket ("[Foo Title](foo.md)".toList) = false) ∧
    clean_links 2 [("foo/".toList, c5docTarget)] ["exported", "bar.md"]
        ('[' :: '[' :: ' ' :: "foo".toList ++ [' ', ']', ']']) =
      some ("[Foo Title](foo.md)".toList) :=
  ⟨by decide,
    C5_bare_slug_rewrite_amended 0 [("foo/".toList, c5docTarget)]
      ["exported", "bar.md"] ("foo".toList) ("foo/".toList)
      ("[Foo Title](foo.md)".toList) (by decide) (by decide) (by decide)
      (by
        have h1 : alookup [("foo/".toList, c5docTarget)] ("foo/".toList) =
            some c5docTarget := by decide
        simp only [h1]
        rw [render_link,
          show (["exported", "bar.md"] : List String).dropLast = ["exported"]
            from rfl,
          show c5docTarget.path = ["exported", "foo.md"] from rfl,
          c5_rrt_witness]
        decide)
      (by decide)⟩

/-- C5 fails as stated: with `Foo` absent from the Slug Index, the token
`[[ Foo ]]` becomes `[foo/](foo/)` — the normalized slug — not the literal
`[Foo](Foo)` the claim prescribes. -/
theorem C5_literal_fallback_counterexample :
    clean_links 2 [] ["exported"] ("[[ Foo ]]".toList) =
      some ("[foo/](foo/)".toList) ∧
      ("[foo/](foo/)".toList : List Char) ≠ "[Foo](Foo)".toList := by
  decide
